import Mathlib

/-!
Verification development for the Nyalock in-browser retrieval client
(`docs/nyalock/nyalock.js`): a shallow embedding of its tokenizer, TF-IDF
index builder, scorer/ranker, corpus loader and submit handler, together
with theorems checking the specified properties.

Modelling conventions:
* JavaScript floating-point scores are modelled by real numbers; `Math.log`
  becomes `Real.log`.
* `Array.prototype.sort` is stable (ECMAScript 2019) and the comparator
  `(a, b) => b.s - a.s` induces the total preorder "greater-or-equal score";
  a stable sort for a total preorder has a unique result, so it is modelled
  by `List.mergeSort` (which is stable) with the Bool comparator
  "left score ≥ right score".
* JavaScript `Map` iteration order is insertion order; a count map built by
  a loop is modelled as the list of first occurrences of keys paired with
  their counts, or as the counting function itself.
* The regex classes `\p{P}`, `\p{S}` (punctuation and symbols) and `\s` of
  `tokenize`, and `String.prototype.trim`, are modelled on the ASCII
  fragment of Unicode, which is exact for every string handled in this
  development; `toLowerCase` is modelled per character by `Char.toLower`
  (exact on ASCII).
* Splitting on the regex `/\s+/` followed by dropping empty pieces is
  modelled by splitting at every single whitespace character followed by
  dropping empty pieces; both produce the same final token list.
* Strings are processed through their character lists (`String.data`), so
  every definition evaluates by kernel reduction.
-/

namespace Nyalock

/-- ASCII fragment of the JavaScript regex class `\s` (whitespace). -/
def isJsWhitespace (c : Char) : Bool :=
  c = ' ' || c = '\t' || c = '\n' || c = '\r' || c = '\x0b' || c = '\x0c'

/-- ASCII fragment of the regex class `[\p{P}\p{S}]` (Unicode punctuation and
symbols): exactly the non-alphanumeric printable ASCII characters. -/
def isPunctOrSymbolChar (c : Char) : Bool :=
  (0x21 ≤ c.toNat && c.toNat ≤ 0x2f) || (0x3a ≤ c.toNat && c.toNat ≤ 0x40) ||
  (0x5b ≤ c.toNat && c.toNat ≤ 0x60) || (0x7b ≤ c.toNat && c.toNat ≤ 0x7e)

/-- Per-character composition of `toLowerCase` and the replacement
`.replace(/[\p{P}\p{S}]/gu, ' ')` from `tokenize`. -/
def normalizeChar (c : Char) : Char :=
  let lc := c.toLower
  if isPunctOrSymbolChar lc then ' ' else lc

/-- Split a character list at every whitespace character, keeping empty
pieces (as `String.prototype.split` does); `acc` holds the current piece
reversed. Together with the later removal of empty pieces this coincides
with splitting on runs of whitespace, which is what `/\s+/` does. -/
def splitOnWs : List Char → List Char → List (List Char)
  | [], acc => [acc.reverse]
  | c :: rest, acc =>
    if isJsWhitespace c then acc.reverse :: splitOnWs rest []
    else splitOnWs rest (c :: acc)

/-- Model of `tokenize` from `nyalock.js`: lowercase, replace punctuation and
symbols by a space, split on whitespace, drop empty tokens. -/
def tokenize (text : String) : List String :=
  (((splitOnWs (text.data.map normalizeChar) []).map
    (fun p => String.mk p)).filter (fun s => s ≠ ""))

/-- A retrievable chunk, in the field order of the object literal pushed by
`loadData`. -/
structure Chunk where
  id : String
  text : String
  title : String
  date : String
  url : String
deriving DecidableEq, Repr

/-- The default chunk used to totalize positional access `index.items[i]`. -/
def defaultChunk : Chunk :=
  { id := "", text := "", title := "", date := "", url := "" }

/-- The index built by `buildIndex`: the corpus, the document-frequency
table, the per-chunk term-frequency tables, and the chunk count. -/
structure Index where
  items : List Chunk
  df : String → Nat
  tf : List (String → Nat)
  N : Nat

/-- The per-chunk count map built by the first loop of `buildIndex`:
each term maps to its number of occurrences in the token list. -/
def termCounts (tokens : List String) : String → Nat :=
  fun t => tokens.count t

/-- One step of the corpus traversal of `buildIndex`: count the chunk's
terms, bump the shared document-frequency table once for every term present
in the chunk, and append the count map to the term-frequency list. -/
def buildStep (acc : (String → Nat) × List (String → Nat)) (it : Chunk) :
    (String → Nat) × List (String → Nat) :=
  let counts := termCounts (tokenize it.text)
  (fun t => if 0 < counts t then acc.1 t + 1 else acc.1 t, acc.2 ++ [counts])

/-- Model of `buildIndex` from `nyalock.js`. -/
def buildIndex (items : List Chunk) : Index :=
  let acc := items.foldl buildStep (fun _ => 0, [])
  { items := items, df := acc.1, tf := acc.2, N := items.length }

/-- First occurrences of the elements of a list, in order: the iteration
order of the keys of a JavaScript `Map` filled by a loop. -/
def dedupKeys : List String → List String
  | [] => []
  | t :: ts => t :: (dedupKeys ts).filter (fun x => x ≠ t)

/-- The entries of the query count map `qCounts` of `score`, in insertion
order: each distinct query term paired with its occurrence count. -/
def qCountsList (q : String) : List (String × Nat) :=
  (dedupKeys (tokenize q)).map (fun t => (t, (tokenize q).count t))

/-- Term frequency of term `t` in chunk `i`, i.e. `index.tf[i].get(term) || 0`. -/
def tfAt (idx : Index) (i : Nat) (t : String) : Nat :=
  (idx.tf.getD i (fun _ => 0)) t

/-- The score accumulated for chunk `i` by the inner loop of `score`:
for each entry of `qCounts`, skip it if its document frequency is zero,
otherwise add `qtf * (1 + ln(1 + tf)) * idf` with
`idf = ln((N + 1) / (df + 0.5))`. -/
noncomputable def chunkScore (q : String) (idx : Index) (i : Nat) : ℝ :=
  (qCountsList q).foldl
    (fun s p =>
      if idx.df p.1 = 0 then s
      else s + ((p.2 : ℝ) * (1 + Real.log (1 + (tfAt idx i p.1 : ℝ)))) *
        Real.log (((idx.N : ℝ) + 1) / ((idx.df p.1 : ℝ) + 0.5)))
    0

/-- The pre-sort list `scores` of `score`: each chunk position paired with
its score. -/
noncomputable def scoresList (q : String) (idx : Index) : List (Nat × ℝ) :=
  (List.range idx.items.length).map (fun i => (i, chunkScore q idx i))

/-- Bool comparator induced by `(a, b) => b.s - a.s`: `a` may come before
`b` exactly when `a`'s score is at least `b`'s. -/
noncomputable def scoreLE (a b : Nat × ℝ) : Bool :=
  decide (b.2 ≤ a.2)

/-- The list `scores` after `scores.sort((a, b) => b.s - a.s)`: a stable
descending sort. -/
noncomputable def sortedScores (q : String) (idx : Index) : List (Nat × ℝ) :=
  (scoresList q idx).mergeSort scoreLE

/-- A chunk paired with its computed relevance score, as returned by
`score` via `({ ...index.items[i], score: s })`. -/
structure ScoredChunk where
  chunk : Chunk
  score : ℝ

/-- Model of `score` from `nyalock.js`: rank all chunks by descending
score (stable) and return the first `topK`, each with its chunk fields and
score. -/
noncomputable def score (q : String) (idx : Index) (topK : Nat) : List ScoredChunk :=
  ((sortedScores q idx).take topK).map
    (fun p => { chunk := idx.items.getD p.1 defaultChunk, score := p.2 })

/-- Split a character list on runs of two or more newlines, as the regex
split `text.split(/\n\n+/)` does. `acc` is the current piece reversed and
`pending` the number of newline characters read but not yet classified:
a run of length at least two is a separator, a single newline stays in the
text. -/
def splitParasAux : List Char → List Char → Nat → List (List Char)
  | [], acc, pending =>
    if 2 ≤ pending then [acc.reverse, []]
    else if pending = 1 then [('\n' :: acc).reverse]
    else [acc.reverse]
  | c :: rest, acc, pending =>
    if c = '\n' then splitParasAux rest acc (pending + 1)
    else if 2 ≤ pending then acc.reverse :: splitParasAux rest [c] 0
    else if pending = 1 then splitParasAux rest (c :: '\n' :: acc) 0
    else splitParasAux rest (c :: acc) 0

/-- The paragraphs of a transcription text:
`text.split(/\n\n+/).filter(Boolean)`. -/
def paras (text : String) : List String :=
  ((splitParasAux text.data [] 0).map (fun l => String.mk l)).filter
    (fun s => s ≠ "")

/-- A source record as read by `loadData` after metadata extraction:
title, date, url and the transcription text. -/
structure Record where
  title : String
  date : String
  url : String
  text : String

/-- The chunks emitted for one record by `loadData`: one chunk per
surviving paragraph, with id `url#p{idx}` and text truncated to 2000
characters. -/
def recordChunks (r : Record) : List Chunk :=
  (paras r.text).enum.map
    (fun pi =>
      { id := r.url ++ "#p" ++ toString pi.1,
        text := String.mk (pi.2.data.take 2000),
        title := r.title, date := r.date, url := r.url })

/-- The corpus assembly loop of `loadData` over a record list: records with
empty transcription text are skipped, the others contribute their chunks in
order. -/
def assembleItems (records : List Record) : List Chunk :=
  records.foldl (fun acc r => if r.text = "" then acc else acc ++ recordChunks r) []

/-- The observable outcome of fetching one candidate location: a network
error, or a response with success flag, status text, content type and body. -/
inductive FetchResult where
  | netErr (msg : String)
  | resp (ok : Bool) (status : String) (contentType : String) (body : String)

/-- Substring test on character lists, modelling `String.prototype.includes`. -/
def containsSub (needle : List Char) : List Char → Bool
  | [] => needle.isEmpty
  | c :: rest => needle.isPrefixOf (c :: rest) || containsSub needle rest

/-- ASCII model of `String.prototype.trim` on a character list. -/
def trimChars (l : List Char) : List Char :=
  ((l.dropWhile isJsWhitespace).reverse.dropWhile isJsWhitespace).reverse

/-- Does the character list start with `<`, as in `text.trim().startsWith('<')`. -/
def headIsLt : List Char → Bool
  | [] => false
  | c :: _ => c = '<'

/-- Processing of a single candidate inside the loop of
`fetchJsonWithFallback`: non-success responses and HTML-shaped bodies
without a JSON content type are errors, otherwise the body is parsed.
`parse` stands for `JSON.parse`, which may itself fail. -/
def tryFetch {α : Type} (parse : String → Except String α) :
    FetchResult → Except String α
  | .netErr msg => .error msg
  | .resp ok status ct body =>
    if !ok then .error status
    else if !containsSub ("application/json").data ct.data &&
        headIsLt (trimChars body.data) then
      .error ("Received HTML instead of JSON")
    else parse body

/-- The candidate loop of `fetchJsonWithFallback`, threading the last
encountered failure. -/
def fetchLoop {α : Type} (parse : String → Except String α) :
    List FetchResult → Option String → Except String α
  | [], none => .error ("All fetch attempts failed")
  | [], some e => .error e
  | p :: rest, last =>
    match tryFetch parse p with
    | .ok v => .ok v
    | .error e => fetchLoop parse rest (some e)

/-- Model of `fetchJsonWithFallback` from `nyalock.js`. -/
def fetchJsonWithFallback {α : Type} (parse : String → Except String α)
    (paths : List FetchResult) : Except String α :=
  fetchLoop parse paths none

/-- ASCII model of `String.prototype.trim` on strings. -/
def jsTrim (s : String) : String :=
  String.mk (trimChars s.data)

/-- The observable outcome of the form submit handler: empty queries are
ignored, a missing index signals not-ready, otherwise the scorer runs on
the trimmed query with `topK = 8`. -/
inductive SubmitResult where
  | ignored
  | notReady
  | answered (top : List ScoredChunk)

/-- Model of the `submit` event listener of `nyalock.js`, restricted to its
retrieval-relevant behaviour. -/
noncomputable def handleSubmit (idx : Option Index) (rawQuery : String) : SubmitResult :=
  let q := jsTrim rawQuery
  if q = "" then .ignored
  else
    match idx with
    | none => .notReady
    | some index => .answered (score q index 8)

/-- The two-chunk demonstration corpus of the specification:
`["cat dog", "dog dog"]`. -/
def demoItems : List Chunk :=
  [{ id := "c0", text := "cat dog", title := "", date := "", url := "" },
   { id := "c1", text := "dog dog", title := "", date := "", url := "" }]

/-- The index built over the demonstration corpus. -/
def demoIndex : Index := buildIndex demoItems

/-- A three-chunk corpus for the top-K clamping property. -/
def demo3Items : List Chunk :=
  [{ id := "c0", text := "cat", title := "", date := "", url := "" },
   { id := "c1", text := "dog", title := "", date := "", url := "" },
   { id := "c2", text := "bird", title := "", date := "", url := "" }]

/-- The index built over the three-chunk corpus. -/
def demo3Index : Index := buildIndex demo3Items

/-- A concrete stand-in for `JSON.parse` used to exercise the fetch
fallback: it accepts exactly one body. -/
def demoParse (s : String) : Except String Nat :=
  if s = "good body" then .ok 0 else .error ("unparsable")

/-! Helper lemmas about the embedded definitions. -/

/-- Folding an accumulate-or-skip step is adding the sum of the individual
contributions. -/
theorem foldl_skip_add {β : Type} (c : β → Prop) [DecidablePred c] (e : β → ℝ) :
    ∀ (l : List β) (a : ℝ),
      l.foldl (fun s p => if c p then s else s + e p) a
        = a + (l.map (fun p => if c p then 0 else e p)).sum
  | [], a => by simp
  | x :: l, a => by
    by_cases h : c x <;>
      simp [h, foldl_skip_add c e l, add_assoc]

/-- Membership is invariant under key deduplication. -/
theorem mem_dedupKeys {x : String} : ∀ {l : List String}, x ∈ dedupKeys l ↔ x ∈ l
  | [] => by simp [dedupKeys]
  | t :: ts => by
    by_cases hx : x = t <;>
      simp [dedupKeys, List.mem_filter, hx, mem_dedupKeys (l := ts)]

/-- Key deduplication produces a duplicate-free list. -/
theorem nodup_dedupKeys : ∀ (l : List String), (dedupKeys l).Nodup
  | [] => by simp [dedupKeys]
  | t :: ts => by
    refine List.Nodup.cons ?_ (List.Nodup.filter _ (nodup_dedupKeys ts))
    intro hmem
    rcases List.mem_filter.mp hmem with ⟨-, hne⟩
    simp at hne

/-- Key deduplication preserves the set of keys. -/
theorem toFinset_dedupKeys (l : List String) : (dedupKeys l).toFinset = l.toFinset := by
  apply Finset.ext
  intro x
  simp [List.mem_toFinset, mem_dedupKeys]

/-- The term-frequency tables collected by the `buildIndex` fold, with a
generalized accumulator. -/
theorem buildFold_tf (items : List Chunk) :
    ∀ (d : String → Nat) (l : List (String → Nat)),
      (items.foldl buildStep (d, l)).2
        = l ++ items.map (fun it => termCounts (tokenize it.text)) := by
  induction items with
  | nil => simp
  | cons it items ih =>
    intro d l
    rw [List.foldl_cons]
    show (items.foldl buildStep (buildStep (d, l) it)).2 = _
    rw [buildStep, ih]
    simp

/-- The document-frequency table collected by the `buildIndex` fold, with a
generalized accumulator. -/
theorem buildFold_df (items : List Chunk) :
    ∀ (d : String → Nat) (l : List (String → Nat)) (t : String),
      (items.foldl buildStep (d, l)).1 t
        = d t + items.countP (fun it => decide (0 < termCounts (tokenize it.text) t)) := by
  induction items with
  | nil => simp
  | cons it items ih =>
    intro d l t
    rw [List.foldl_cons]
    show (items.foldl buildStep (buildStep (d, l) it)).1 t = _
    rw [ih, List.countP_cons]
    show (if 0 < termCounts (tokenize it.text) t then d t + 1 else d t) + _ = _
    by_cases h : 0 < termCounts (tokenize it.text) t <;> simp [h] <;> omega

/-- The term-frequency list of a built index, chunk by chunk. -/
theorem buildIndex_tf (items : List Chunk) :
    (buildIndex items).tf = items.map (fun it => termCounts (tokenize it.text)) := by
  show (items.foldl buildStep (fun _ => 0, [])).2 = _
  rw [buildFold_tf]
  simp

/-- The document frequency of a built index counts the chunks whose
term count for the term is positive. -/
theorem buildIndex_df (items : List Chunk) (t : String) :
    (buildIndex items).df t
      = items.countP (fun it => decide (0 < termCounts (tokenize it.text) t)) := by
  show (items.foldl buildStep (fun _ => 0, [])).1 t = _
  rw [buildFold_df]
  simp

/-- The chunk count of a built index is the corpus length. -/
theorem buildIndex_N (items : List Chunk) : (buildIndex items).N = items.length := rfl

/-- Document frequencies of a built index never exceed the chunk count. -/
theorem buildIndex_df_le (items : List Chunk) (t : String) :
    (buildIndex items).df t ≤ (buildIndex items).N := by
  rw [buildIndex_df, buildIndex_N]
  exact List.countP_le_length _

/-- Counting over a list is counting over its index range. -/
theorem countP_eq_countP_range {γ : Type} (pd : γ → Bool) (d : γ) :
    ∀ (L : List γ),
      L.countP pd = (List.range L.length).countP (fun i => pd (L.getD i d)) := by
  intro L
  induction L with
  | nil => simp
  | cons x L ih =>
    rw [List.countP_cons, List.length_cons, List.range_succ_eq_map,
      List.countP_cons, List.countP_map, ih]
    simp [Function.comp_def]

/-- Counting over an index range is the cardinality of the corresponding
subset of `Finset.range`. -/
theorem countP_range_eq_card (p : Nat → Prop) [DecidablePred p] :
    ∀ (n : Nat),
      (List.range n).countP (fun i => decide (p i)) = ((Finset.range n).filter p).card := by
  intro n
  induction n with
  | zero => simp
  | succ n ih =>
    rw [List.range_succ, List.countP_append, Finset.range_succ, Finset.filter_insert]
    by_cases h : p n
    · rw [if_pos h, Finset.card_insert_of_not_mem (by simp)]
      simp [h, ih]
    · rw [if_neg h]
      simp [h, ih]

/-- The smoothed inverse document frequency of a built index is
non-negative: the document frequency is at most the chunk count, so the
logarithm's argument is at least one. -/
theorem idf_nonneg (items : List Chunk) (t : String) :
    0 ≤ Real.log ((((buildIndex items).N : ℝ) + 1) / (((buildIndex items).df t : ℝ) + 0.5)) := by
  apply Real.log_nonneg
  rw [one_le_div (by positivity)]
  have h := buildIndex_df_le items t
  have hc : (((buildIndex items).df t : ℝ)) ≤ ((buildIndex items).N : ℝ) := Nat.cast_le.mpr h
  norm_num
  linarith

/-- Claim C2: `buildIndex` satisfies the document-frequency invariant
`documentFrequency[t] = |{i : termFrequency[i][t] > 0}|` for every term of
every corpus — each chunk bumps a term's document frequency exactly once
when the term occurs in it — and on the two-chunk corpus
`["cat dog", "dog dog"]` it yields `documentFrequency["dog"] = 2`,
`documentFrequency["cat"] = 1` and `termFrequency[1]["dog"] = 2`. -/
theorem claim2_df_invariant :
    (∀ (items : List Chunk) (t : String),
      (buildIndex items).df t
        = ((Finset.range (buildIndex items).N).filter
            (fun i => 0 < tfAt (buildIndex items) i t)).card)
    ∧ (buildIndex demoItems).df "dog" = 2
    ∧ (buildIndex demoItems).df "cat" = 1
    ∧ tfAt (buildIndex demoItems) 1 "dog" = 2 := by
  refine ⟨?_, by decide, by decide, by decide⟩
  intro items t
  rw [buildIndex_df]
  have h1 : items.countP (fun it => decide (0 < termCounts (tokenize it.text) t))
      = (items.map (fun it => termCounts (tokenize it.text))).countP
          (fun m => decide (0 < m t)) := by
    rw [List.countP_map]
    rfl
  rw [h1, countP_eq_countP_range _ (fun _ => 0)]
  have h2 : (items.map (fun it => termCounts (tokenize it.text))).length
      = (buildIndex items).N := by
    rw [List.length_map, buildIndex_N]
  rw [h2]
  have h3 : (fun i => decide
        (0 < ((items.map (fun it => termCounts (tokenize it.text))).getD i (fun _ => 0)) t))
      = (fun i => decide (0 < tfAt (buildIndex items) i t)) := by
    funext i
    rw [tfAt, buildIndex_tf]
  rw [h3]
  exact countP_range_eq_card (fun i => 0 < tfAt (buildIndex items) i t) _

/-- Claim C1: the score `score` accumulates for chunk `i` is exactly the
sum, over the distinct query terms, of
`qtf[t] * (1 + ln(1 + termFrequency[i][t])) * ln((N + 1) / (documentFrequency[t] + 0.5))`,
where terms of document frequency zero contribute nothing. -/
theorem claim1_score_formula (q : String) (idx : Index) (i : Nat) :
    chunkScore q idx i =
      ∑ t ∈ (tokenize q).toFinset,
        (if idx.df t = 0 then 0
         else ((tokenize q).count t : ℝ) *
           (1 + Real.log (1 + (tfAt idx i t : ℝ))) *
           Real.log (((idx.N : ℝ) + 1) / ((idx.df t : ℝ) + 0.5))) := by
  rw [chunkScore, foldl_skip_add, zero_add, qCountsList, List.map_map]
  rw [← List.sum_toFinset _ (nodup_dedupKeys (tokenize q)), toFinset_dedupKeys]
  apply Finset.sum_congr rfl
  intro t ht
  simp [Function.comp_def, mul_assoc]

/-- Every per-chunk score against a built index is non-negative: each
term's contribution is a product of non-negative factors. -/
theorem chunkScore_nonneg (q : String) (items : List Chunk) (i : Nat) :
    0 ≤ chunkScore q (buildIndex items) i := by
  rw [chunkScore, foldl_skip_add, zero_add]
  apply List.sum_nonneg
  intro x hx
  rcases List.mem_map.mp hx with ⟨p, hp, rfl⟩
  by_cases h : (buildIndex items).df p.1 = 0
  · simp [h]
  · rw [if_neg h]
    apply mul_nonneg
    · apply mul_nonneg (Nat.cast_nonneg _)
      have hlog : 0 ≤ Real.log (1 + (tfAt (buildIndex items) i p.1 : ℝ)) :=
        Real.log_nonneg (le_add_of_nonneg_right (Nat.cast_nonneg _))
      linarith
    · exact idf_nonneg items p.1

/-- Claim C10: every scored chunk returned by `score` against an index
produced by `buildIndex` carries a non-negative score. -/
theorem claim10_scores_nonneg (q : String) (items : List Chunk) (topK : Nat) :
    List.Forall (fun c => 0 ≤ c.score) (score q (buildIndex items) topK) := by
  rw [List.forall_iff_forall_mem]
  intro c hc
  rw [score] at hc
  rcases List.mem_map.mp hc with ⟨p, hp, rfl⟩
  have hmem : p ∈ sortedScores q (buildIndex items) :=
    (List.take_sublist _ _).subset hp
  rw [sortedScores, List.mem_mergeSort, scoresList] at hmem
  rcases List.mem_map.mp hmem with ⟨i, -, rfl⟩
  exact chunkScore_nonneg q items i

/-- A single-term query produces a one-entry query count map. -/
theorem qCountsList_single {q t : String} (h : tokenize q = [t]) :
    qCountsList q = [(t, 1)] := by
  simp [qCountsList, h, dedupKeys]

/-- Claim C4: against a built index, for a query tokenizing to a single
term, a chunk with a higher term frequency for that term never scores
below a chunk with a lower one. -/
theorem claim4_tf_monotone (items : List Chunk) (q t : String) (i j : Nat)
    (hq : tokenize q = [t])
    (htf : tfAt (buildIndex items) j t ≤ tfAt (buildIndex items) i t) :
    chunkScore q (buildIndex items) j ≤ chunkScore q (buildIndex items) i := by
  rw [chunkScore, chunkScore, qCountsList_single hq]
  simp only [List.foldl_cons, List.foldl_nil]
  by_cases h : (buildIndex items).df (t, 1).1 = 0
  · rw [if_pos h, if_pos h]
  · rw [if_neg h, if_neg h]
    apply add_le_add_left
    apply mul_le_mul_of_nonneg_right _ (idf_nonneg items t)
    apply mul_le_mul_of_nonneg_left _ (by norm_num)
    have hlog : Real.log (1 + (tfAt (buildIndex items) j t : ℝ))
        ≤ Real.log (1 + (tfAt (buildIndex items) i t : ℝ)) := by
      apply Real.log_le_log (by positivity)
      have : ((tfAt (buildIndex items) j t : ℝ)) ≤ (tfAt (buildIndex items) i t : ℝ) :=
        Nat.cast_le.mpr htf
      linarith
    linarith

/-- Concrete instance of claim C4 on the demonstration corpus: for the
query `"dog"`, chunk 1 (two occurrences) scores at least chunk 0 (one). -/
theorem claim4_tf_monotone_witness :
    chunkScore ("dog") demoIndex 0 ≤ chunkScore ("dog") demoIndex 1 :=
  claim4_tf_monotone demoItems ("dog") ("dog") 1 0 (by decide) (by decide)

/-- The descending-score comparator is transitive. -/
theorem scoreLE_trans (a b c : Nat × ℝ)
    (h1 : scoreLE a b = true) (h2 : scoreLE b c = true) : scoreLE a c = true := by
  simp only [scoreLE, decide_eq_true_eq] at *
  exact h2.trans h1

/-- The descending-score comparator is total. -/
theorem scoreLE_total (a b : Nat × ℝ) : (scoreLE a b || scoreLE b a) = true := by
  simp only [scoreLE, Bool.or_eq_true, decide_eq_true_eq]
  exact le_total b.2 a.2

/-- When every query term is absent from the corpus, every chunk scores
zero. -/
theorem chunkScore_eq_zero_of_df_zero {q : String} {idx : Index}
    (hdf : ∀ t ∈ tokenize q, idx.df t = 0) (k : Nat) :
    chunkScore q idx k = 0 := by
  rw [chunkScore, foldl_skip_add, zero_add]
  apply List.sum_eq_zero
  intro x hx
  rcases List.mem_map.mp hx with ⟨p, hp, rfl⟩
  rcases List.mem_map.mp hp with ⟨t, ht, rfl⟩
  rw [if_pos (hdf t (mem_dedupKeys.mp ht))]

/-- Claim C3: `score` ranks by descending score; entries with equal scores
keep their original corpus order (the sort is stable); consequently a query
none of whose terms occurs in the corpus returns the chunks, up to `topK`,
each with score zero and in original corpus order. -/
theorem claim3_sort_stable (q : String) (idx : Index) (topK : Nat) :
    ((score q idx topK).map (fun c => c.score)).Pairwise (fun a b => b ≤ a)
    ∧ (∀ (i j : Nat) (s : ℝ), List.Sublist [(i, s), (j, s)] (scoresList q idx) →
        List.Sublist [(i, s), (j, s)] (sortedScores q idx))
    ∧ ((∀ t ∈ tokenize q, idx.df t = 0) →
        score q idx topK
          = (idx.items.take topK).map (fun it => { chunk := it, score := 0 })) := by
  refine ⟨?_, ?_, ?_⟩
  · have hs := List.sorted_mergeSort scoreLE_trans scoreLE_total (scoresList q idx)
    have htake : ((sortedScores q idx).take topK).Pairwise
        (fun a b => scoreLE a b = true) :=
      List.Pairwise.sublist (List.take_sublist _ _) hs
    rw [score, List.map_map]
    apply List.Pairwise.map _ _ htake
    intro a b hab
    simpa [scoreLE] using hab
  · intro i j s hsub
    exact List.pair_sublist_mergeSort scoreLE_trans scoreLE_total
      (by simp [scoreLE]) hsub
  · intro hdf
    have hsl : scoresList q idx
        = (List.range idx.items.length).map (fun i => (i, (0 : ℝ))) := by
      simp [scoresList, chunkScore_eq_zero_of_df_zero hdf]
    have hall : ∀ (l : List Nat),
        (l.map (fun i => (i, (0 : ℝ)))).Pairwise (fun a b => scoreLE a b = true) := by
      intro l
      rw [List.pairwise_map]
      induction l with
      | nil => exact List.Pairwise.nil
      | cons x xs ih =>
        exact List.Pairwise.cons (fun y _ => by simp [scoreLE]) ih
    have hsorted : sortedScores q idx = scoresList q idx := by
      rw [sortedScores]
      apply List.mergeSort_of_sorted
      rw [hsl]
      exact hall _
    rw [score, hsorted, hsl, ← List.map_take, List.map_map]
    apply List.ext_getElem
    · simp
    · intro n h1 h2
      have hn : n < idx.items.length := by
        simp at h2
        omega
      simp [List.getD_eq_getElem _ _ hn, List.getElem?_eq_getElem hn]

/-- Concrete instance of claim C3 on the demonstration corpus with the
unknown-term query `"zzz"`: the equal-score pair keeps its order through
the sort and the result lists both chunks, in order, with score zero. -/
theorem claim3_sort_stable_witness :
    List.Sublist [((0 : Nat), (0 : ℝ)), (1, 0)] (sortedScores ("zzz") demoIndex)
    ∧ score ("zzz") demoIndex 8
        = (demoIndex.items.take 8).map (fun it => { chunk := it, score := 0 }) := by
  constructor
  · exact (claim3_sort_stable ("zzz") demoIndex 8).2.1 0 1 0 (List.Sublist.refl _)
  · exact (claim3_sort_stable ("zzz") demoIndex 8).2.2 (by decide)

/-- Claim C5: `score` always succeeds and returns exactly
`min topK N` scored chunks; in particular `topK = 8` against the
three-chunk corpus returns exactly 3 results. -/
theorem claim5_topk_length :
    (∀ (q : String) (idx : Index) (topK : Nat),
      (score q idx topK).length = min topK idx.items.length)
    ∧ (score ("dog") demo3Index 8).length = 3 := by
  have h : ∀ (q : String) (idx : Index) (topK : Nat),
      (score q idx topK).length = min topK idx.items.length := by
    intro q idx topK
    rw [score, List.length_map, List.length_take, sortedScores,
      List.length_mergeSort, scoresList, List.length_map, List.length_range]
  exact ⟨h, by rw [h]; rfl⟩

/-- A text without newline characters is a single paragraph piece. -/
theorem splitParasAux_no_newline :
    ∀ (l acc : List Char), (∀ c ∈ l, c ≠ '\n') →
      splitParasAux l acc 0 = [acc.reverse ++ l]
  | [], acc, _ => by simp [splitParasAux]
  | c :: rest, acc, h => by
    have hc : c ≠ '\n' := h c (by simp)
    simp only [splitParasAux, if_neg hc]
    norm_num
    rw [splitParasAux_no_newline rest (c :: acc) (fun x hx => h x (by simp [hx]))]
    simp

/-- Claim C6: for every record, corpus assembly emits one chunk per
surviving paragraph, with id `url#p{idx}` indexed in order from 0, text
truncated to at most 2000 characters, paragraph and record order preserved
and empty-text records skipped; concretely, a three-paragraph text yields
ids `#p0`, `#p1`, `#p2` in order and a 2001-character paragraph is cut to
exactly 2000 characters. -/
theorem claim6_chunking :
    (∀ r : Record, (recordChunks r).map (fun c => c.id)
      = (List.range (paras r.text).length).map (fun idx => r.url ++ "#p" ++ toString idx))
    ∧ (∀ r : Record, List.Forall (fun c => c.text.length ≤ 2000) (recordChunks r))
    ∧ (∀ r : Record, (recordChunks r).map (fun c => c.text)
        = (paras r.text).map (fun p => String.mk (p.data.take 2000)))
    ∧ (∀ (rs : List Record) (r : Record), assembleItems (rs ++ [r])
        = assembleItems rs ++ (if r.text = "" then [] else recordChunks r))
    ∧ recordChunks { title := "t", date := "d", url := "u", text := "aaa\n\nbbb\n\nccc" }
        = [{ id := "u#p0", text := "aaa", title := "t", date := "d", url := "u" },
           { id := "u#p1", text := "bbb", title := "t", date := "d", url := "u" },
           { id := "u#p2", text := "ccc", title := "t", date := "d", url := "u" }]
    ∧ (recordChunks ⟨"t", "d", "u", String.mk (List.replicate 2001 'a')⟩).map
        (fun c => c.text.length) = [2000] := by
  refine ⟨?_, ?_, ?_, ?_, by decide, ?_⟩
  · intro r
    apply List.ext_getElem
    · simp [recordChunks]
    · intro n h1 h2
      simp [recordChunks, List.getElem_enum]
  · intro r
    rw [List.forall_iff_forall_mem]
    intro c hc
    rw [recordChunks] at hc
    rcases List.mem_map.mp hc with ⟨pi, -, rfl⟩
    simp [String.length_mk, List.length_take]
  · intro r
    apply List.ext_getElem
    · simp [recordChunks]
    · intro n h1 h2
      simp [recordChunks, List.getElem_enum]
  · intro rs r
    rw [assembleItems, assembleItems, List.foldl_concat]
    by_cases h : r.text = ""
    · rw [if_pos h, if_pos h, List.append_nil]
    · rw [if_neg h, if_neg h]
  · have hl : ∀ c ∈ List.replicate 2001 'a', c ≠ '\n' := by
      intro c hc
      rw [List.eq_of_mem_replicate hc]
      decide
    have hne : String.mk (List.replicate 2001 'a') ≠ "" := by
      intro hcontra
      have h2 := congrArg List.length (congrArg String.data hcontra)
      rw [show (String.mk (List.replicate 2001 'a')).data = List.replicate 2001 'a' from rfl,
        List.length_replicate, show ("" : String).data = ([] : List Char) from rfl,
        List.length_nil] at h2
      omega
    have hp : paras (String.mk (List.replicate 2001 'a'))
        = [String.mk (List.replicate 2001 'a')] := by
      rw [paras,
        show (String.mk (List.replicate 2001 'a')).data = List.replicate 2001 'a' from rfl,
        splitParasAux_no_newline _ _ hl]
      rw [show (([] : List Char).reverse ++ List.replicate 2001 'a')
          = List.replicate 2001 'a' from by rw [List.reverse_nil, List.nil_append]]
      rw [List.map_cons, List.map_nil,
        List.filter_cons_of_pos (by exact decide_eq_true hne), List.filter_nil]
    rw [recordChunks, hp,
      show List.enum [String.mk (List.replicate 2001 'a')]
        = [(0, String.mk (List.replicate 2001 'a'))] from rfl]
    rw [List.map_cons, List.map_nil, List.map_cons, List.map_nil]
    rw [show (String.mk ((String.mk (List.replicate 2001 'a')).data.take 2000)).length
        = 2000 from by
      rw [String.length_mk, List.length_take,
        show (String.mk (List.replicate 2001 'a')).data = List.replicate 2001 'a' from rfl,
        List.length_replicate]
      omega]

/-- One failing candidate moves the loop to the next candidate, recording
its failure. -/
theorem fetchLoop_cons_error {α : Type} (parse : String → Except String α)
    (p : FetchResult) (rest : List FetchResult) (last : Option String) (e : String)
    (h : tryFetch parse p = .error e) :
    fetchLoop parse (p :: rest) last = fetchLoop parse rest (some e) := by
  rw [fetchLoop, h]

/-- A successful candidate ends the loop with its parsed value. -/
theorem fetchLoop_cons_ok {α : Type} (parse : String → Except String α)
    (p : FetchResult) (rest : List FetchResult) (last : Option String) (v : α)
    (h : tryFetch parse p = .ok v) :
    fetchLoop parse (p :: rest) last = .ok v := by
  rw [fetchLoop, h]

/-- After any run of failing candidates, the first successful candidate
determines the result. -/
theorem fetchLoop_ok_after_failures {α : Type} (parse : String → Except String α) :
    ∀ (pre : List FetchResult) (last : Option String) (p : FetchResult)
      (rest : List FetchResult) (v : α),
      (∀ x ∈ pre, ∃ e, tryFetch parse x = .error e) → tryFetch parse p = .ok v →
      fetchLoop parse (pre ++ p :: rest) last = .ok v
  | [], last, p, rest, v, _, h => fetchLoop_cons_ok parse p rest last v h
  | x :: pre, last, p, rest, v, hall, h => by
    rcases hall x (by simp) with ⟨e, he⟩
    rw [List.cons_append, fetchLoop_cons_error parse x _ last e he]
    exact fetchLoop_ok_after_failures parse pre (some e) p rest v
      (fun y hy => hall y (by simp [hy])) h

/-- When every candidate fails, the loop surfaces the last failure. -/
theorem fetchLoop_error_after_failures {α : Type} (parse : String → Except String α) :
    ∀ (pre : List FetchResult) (last : Option String) (p : FetchResult) (e : String),
      (∀ x ∈ pre, ∃ e', tryFetch parse x = .error e') → tryFetch parse p = .error e →
      fetchLoop parse (pre ++ [p]) last = .error e
  | [], last, p, e, _, h => by
    rw [List.nil_append, fetchLoop_cons_error parse p [] last e h, fetchLoop]
  | x :: pre, last, p, e, hall, h => by
    rcases hall x (by simp) with ⟨e', he'⟩
    rw [List.cons_append, fetchLoop_cons_error parse x _ last e' he']
    exact fetchLoop_error_after_failures parse pre (some e') p e
      (fun y hy => hall y (by simp [hy])) h

/-- Claim C7: the loader tries the candidates strictly in order, rejects
non-success responses and markup-shaped bodies and moves on, returns the
parsed body of the first successful candidate, and surfaces the last
encountered failure only when every candidate has failed. -/
theorem claim7_fallback (α : Type) (parse : String → Except String α) :
    (∀ status ct body, tryFetch parse (.resp false status ct body) = .error status)
    ∧ (∀ status ct body, containsSub ("application/json").data ct.data = false →
        headIsLt (trimChars body.data) = true →
        tryFetch parse (.resp true status ct body)
          = .error ("Received HTML instead of JSON"))
    ∧ (∀ (p : FetchResult) (rest : List FetchResult) (last : Option String) (e : String),
        tryFetch parse p = .error e →
        fetchLoop parse (p :: rest) last = fetchLoop parse rest (some e))
    ∧ (∀ (pre : List FetchResult) (p : FetchResult) (rest : List FetchResult) (v : α),
        (∀ x ∈ pre, ∃ e, tryFetch parse x = .error e) → tryFetch parse p = .ok v →
        fetchJsonWithFallback parse (pre ++ p :: rest) = .ok v)
    ∧ (∀ (pre : List FetchResult) (p : FetchResult) (e : String),
        (∀ x ∈ pre, ∃ e', tryFetch parse x = .error e') → tryFetch parse p = .error e →
        fetchJsonWithFallback parse (pre ++ [p]) = .error e) := by
  refine ⟨?_, ?_, ?_, ?_, ?_⟩
  · intro status ct body
    rw [tryFetch]
    rfl
  · intro status ct body hct hbody
    rw [tryFetch]
    simp [hct, hbody]
  · exact fun p rest last e h => fetchLoop_cons_error parse p rest last e h
  · exact fun pre p rest v hall h =>
      fetchLoop_ok_after_failures parse pre none p rest v hall h
  · exact fun pre p e hall h =>
      fetchLoop_error_after_failures parse pre none p e hall h

/-- Concrete instance of claim C7: a markup body is rejected; with
candidates `[A, B]` where `A` is down and `B` succeeds, the result is `B`'s
parse; when both candidates are down, the last failure surfaces. -/
theorem claim7_fallback_witness :
    tryFetch demoParse (.resp true ("200") ("text/html") ("  <html>"))
      = .error ("Received HTML instead of JSON")
    ∧ fetchJsonWithFallback demoParse
        [.netErr ("A down"), .resp true ("200") ("application/json") ("good body")]
      = .ok 0
    ∧ fetchJsonWithFallback demoParse [.netErr ("A down"), .netErr ("B down")]
      = .error ("B down") := by
  refine ⟨?_, ?_, ?_⟩
  · exact (claim7_fallback Nat demoParse).2.1 ("200") ("text/html") ("  <html>")
      (by decide) (by decide)
  · exact (claim7_fallback Nat demoParse).2.2.2.1 [.netErr ("A down")]
      (.resp true ("200") ("application/json") ("good body")) [] 0
      (by
        intro x hx
        rw [List.mem_singleton] at hx
        subst hx
        exact ⟨"A down", rfl⟩)
      rfl
  · exact (claim7_fallback Nat demoParse).2.2.2.2 [.netErr ("A down")]
      (.netErr ("B down")) ("B down")
      (by
        intro x hx
        rw [List.mem_singleton] at hx
        subst hx
        exact ⟨"A down", rfl⟩)
      rfl

/-- The scalar value of `Char.toLower`: basic latin capitals move down by
32, everything else is unchanged. -/
theorem toNat_toLower (c : Char) :
    (Char.toLower c).toNat
      = if 65 ≤ c.toNat ∧ c.toNat ≤ 90 then c.toNat + 32 else c.toNat := by
  show (if 65 ≤ c.toNat ∧ c.toNat ≤ 90 then Char.ofNat (c.toNat + 32) else c).toNat = _
  by_cases h : 65 ≤ c.toNat ∧ c.toNat ≤ 90
  · rw [if_pos h, if_pos h]
    have hv : (c.toNat + 32).isValidChar := Or.inl (by omega)
    rw [show Char.ofNat (c.toNat + 32) = Char.ofNatAux (c.toNat + 32) hv from dif_pos hv]
    simp [Char.ofNatAux, Char.toNat, UInt32.toNat]
  · rw [if_neg h, if_neg h]

/-- Uppercase basic latin letters are exactly scalar values 65 to 90. -/
theorem isUpper_iff (c : Char) : c.isUpper = true ↔ 65 ≤ c.toNat ∧ c.toNat ≤ 90 := by
  simp [Char.isUpper, Char.le_def, UInt32.le_def, BitVec.le_def, Char.toNat, UInt32.toNat]

/-- Lowercasing a character never yields an uppercase letter. -/
theorem toLower_not_upper (c : Char) : (Char.toLower c).isUpper = false := by
  rw [Bool.eq_false_iff]
  intro hu
  rw [isUpper_iff, toNat_toLower c] at hu
  split at hu <;> omega

/-- A normalized character is never uppercase. -/
theorem normalizeChar_not_upper (c : Char) : (normalizeChar c).isUpper = false := by
  rw [normalizeChar]
  by_cases h : isPunctOrSymbolChar c.toLower
  · rw [if_pos h]
    decide
  · rw [if_neg h]
    exact toLower_not_upper c

/-- A normalized character that is not whitespace is not punctuation or a
symbol: those were all replaced by spaces. -/
theorem normalizeChar_not_punct (c : Char)
    (h : isJsWhitespace (normalizeChar c) = false) :
    isPunctOrSymbolChar (normalizeChar c) = false := by
  rw [normalizeChar] at *
  by_cases hp : isPunctOrSymbolChar c.toLower
  · rw [if_pos hp] at h
    exact absurd h (by decide)
  · rw [if_neg hp] at *
    exact Bool.eq_false_iff.mpr hp

/-- Every character of every piece produced by the whitespace split came
from the accumulator or is a non-whitespace character of the input. -/
theorem splitOnWs_chars :
    ∀ (l acc : List Char), ∀ piece ∈ splitOnWs l acc, ∀ c ∈ piece,
      c ∈ acc ∨ (c ∈ l ∧ isJsWhitespace c = false)
  | [], acc => by
    intro piece hpiece c hc
    simp only [splitOnWs, List.mem_singleton] at hpiece
    subst hpiece
    exact Or.inl (List.mem_reverse.mp hc)
  | a :: rest, acc => by
    intro piece hpiece c hc
    by_cases ha : isJsWhitespace a
    · rw [splitOnWs, if_pos ha] at hpiece
      rcases List.mem_cons.mp hpiece with h1 | h1
      · subst h1
        exact Or.inl (List.mem_reverse.mp hc)
      · rcases splitOnWs_chars rest [] piece h1 c hc with h2 | ⟨h2, h3⟩
        · simp at h2
        · exact Or.inr ⟨List.mem_cons_of_mem a h2, h3⟩
    · rw [splitOnWs, if_neg ha] at hpiece
      rcases splitOnWs_chars rest (a :: acc) piece hpiece c hc with h2 | ⟨h2, h3⟩
      · rcases List.mem_cons.mp h2 with h4 | h4
        · subst h4
          exact Or.inr ⟨List.mem_cons_self _ _, Bool.eq_false_iff.mpr ha⟩
        · exact Or.inl h4
      · exact Or.inr ⟨List.mem_cons_of_mem a h2, h3⟩

/-- Claim C8: `tokenize` is a total deterministic function that lowercases,
strips punctuation and symbols, splits on whitespace and drops empty
tokens, preserving order and duplicates; concretely
`tokenize("Hello, World!") = ["hello","world"]` and tokenizing the empty
string yields the empty sequence. -/
theorem claim8_tokenize :
    tokenize ("Hello, World!") = ["hello", "world"]
    ∧ tokenize ("") = []
    ∧ tokenize ("Dog dog DOG!") = ["dog", "dog", "dog"]
    ∧ (∀ s : String, List.Forall
        (fun tok => tok ≠ "" ∧ tok.data.all
          (fun c => !isJsWhitespace c && !isPunctOrSymbolChar c && !c.isUpper) = true)
        (tokenize s)) := by
  refine ⟨by decide, by decide, by decide, ?_⟩
  intro s
  rw [List.forall_iff_forall_mem]
  intro tok htok
  rw [tokenize] at htok
  rcases List.mem_filter.mp htok with ⟨hmem, hne⟩
  rcases List.mem_map.mp hmem with ⟨piece, hpiece, rfl⟩
  refine ⟨by simpa using hne, ?_⟩
  rw [List.all_eq_true]
  intro c hc
  have hdata : c ∈ piece := hc
  rcases splitOnWs_chars _ _ piece hpiece c hdata with h1 | ⟨h1, h2⟩
  · simp at h1
  · rcases List.mem_map.mp h1 with ⟨c0, -, rfl⟩
    rw [h2, normalizeChar_not_punct c0 h2, normalizeChar_not_upper c0]
    rfl

/-- Claim C9: a query submitted while the index is missing is answered
with the not-ready signal and never reaches the scorer; every answered
query comes from running the scorer on an existing index with the trimmed
query and `topK = 8`. -/
theorem claim9_not_ready :
    (∀ q : String, jsTrim q ≠ "" → handleSubmit none q = .notReady)
    ∧ (∀ (q : String) (idx : Option Index) (r : List ScoredChunk),
        handleSubmit idx q = .answered r →
        ∃ i, idx = some i ∧ r = score (jsTrim q) i 8) := by
  constructor
  · intro q h
    simp [handleSubmit, h]
  · intro q idx r h
    simp only [handleSubmit] at h
    by_cases hq : jsTrim q = ""
    · simp [hq] at h
    · simp only [if_neg hq] at h
      cases idx with
      | none => simp at h
      | some i =>
        refine ⟨i, rfl, ?_⟩
        simp only [SubmitResult.answered.injEq] at h
        exact h.symm

/-- Concrete instance of claim C9: a submit with no index built signals
not-ready, and an answered submit against the demonstration index comes
from the scorer. -/
theorem claim9_not_ready_witness :
    handleSubmit none ("hello") = .notReady
    ∧ ∃ i, (some demoIndex) = some i
        ∧ score (jsTrim ("hello")) demoIndex 8 = score (jsTrim ("hello")) i 8 :=
  ⟨claim9_not_ready.1 ("hello") (by decide),
   claim9_not_ready.2 ("hello") (some demoIndex)
     (score (jsTrim ("hello")) demoIndex 8) rfl⟩

end Nyalock
